import Mathlib

/-!
Shallow embedding of the numerical core of `src/Magnetic_Field_3D.py`
(split-operator Schrödinger propagation, Wigner transform, frame
precompute/down-sampling, and the frame-apply animation driver), with
machine floating point modelled by exact real/complex arithmetic.
-/

open Complex Finset

/-- Integer numerator of numpy's fftfreq: `np.fft.fftfreq(n, d)[j] = fftfreqInt n j / (n*d)`.
The bin order is the FFT-native one: `0, 1, ..., ⌈n/2⌉-1, -⌊n/2⌋, ..., -1`. -/
def fftfreqInt (n j : ℕ) : ℤ := if 2 * j < n then (j : ℤ) else (j : ℤ) - (n : ℤ)

/-- Wrap an integer index into `Fin n` with the mathematical (Python/numpy) modulo,
as in the source's `(i_idx + y_idx) % n`. -/
def wrapIdx (n : ℕ) (z : ℤ) (hn : 0 < n) : Fin n :=
  ⟨(z % (n : ℤ)).toNat, by
    have h0 : (0 : ℤ) < (n : ℤ) := by exact_mod_cast hn
    have h1 : 0 ≤ z % (n : ℤ) := Int.emod_nonneg z (by omega)
    have h2 : z % (n : ℤ) < (n : ℤ) := Int.emod_lt_of_pos z h0
    omega⟩

/-- The centered relative-offset values of the source's `y_idx = np.arange(-n//2, n//2)`
(Python floor division: the range starts at `-⌈n/2⌉`); entry `t` is `t - ⌈n/2⌉`. -/
def yIdx (n : ℕ) (t : Fin n) : ℤ := (t.val : ℤ) - ((n + 1) / 2 : ℕ)

/-- Down-sampling index table of the source's `np.linspace(0, n - 1, m, dtype=int)`:
entry `t` is `⌊t * (n-1) / (m-1)⌋` (the float computation agrees with the exact
rational floor, numpy pinning the final entry to the exact stop value). -/
def linIdx (n m t : ℕ) : ℕ := if m ≤ 1 then 0 else t * (n - 1) / (m - 1)

/-- The down-sampling index as a valid index of the source grid. -/
def dsIdx (n m : ℕ) (hn : 0 < n) (t : Fin m) : Fin n :=
  ⟨linIdx n m t.val, by
    unfold linIdx
    split
    · exact hn
    · rename_i h
      have h1 : t.val * (n - 1) ≤ (m - 1) * (n - 1) :=
        Nat.mul_le_mul_right _ (by omega)
      have h2 : t.val * (n - 1) / (m - 1) ≤ (m - 1) * (n - 1) / (m - 1) :=
        Nat.div_le_div_right h1
      have h3 : (m - 1) * (n - 1) / (m - 1) = n - 1 :=
        Nat.mul_div_cancel_left _ (by omega)
      omega⟩

/-- The frame-index clamp of `WignerAnimator.apply_frame`:
`int(max(0, min(len(self.frames) - 1, fidx)))`. -/
def clampIdx (total : ℕ) (fidx : ℤ) : ℤ := max 0 (min ((total : ℤ) - 1) fidx)

/-- Fetch `frames[fidx]` after the clamp, as `apply_frame` does. -/
def fetchFrame {α : Type} (frames : List α) (hne : frames ≠ []) (fidx : ℤ) : α :=
  frames.get ⟨(clampIdx frames.length fidx).toNat, by
    have hl : 0 < frames.length := List.length_pos.mpr hne
    have h1 : (0 : ℤ) ≤ clampIdx frames.length fidx := le_max_left _ _
    have h2 : clampIdx frames.length fidx ≤ (frames.length : ℤ) - 1 :=
      max_le (by omega) (min_le_left _ _)
    omega⟩

/-- State of the `QuantumSystem` object of the source: grid size `n`, domain
width `L`, time step `dt`, the wavefunction `psi`, the double-well potential
samples `V`, and the stored half-step potential phase operator `U_V` (the two
fields the source reassigns after construction). -/
structure QuantumSystem where
  n : ℕ
  L : ℝ
  dt : ℝ
  psi : Fin n → ℂ
  V : Fin n → ℝ
  U_V : Fin n → ℂ

noncomputable section

/-- Spatial step `dx = L / n`. -/
def QuantumSystem.dx (S : QuantumSystem) : ℝ := S.L / S.n

/-- Spatial grid `x = np.linspace(-L/2, L/2, n, endpoint=False)`. -/
def QuantumSystem.x (S : QuantumSystem) (i : Fin S.n) : ℝ :=
  -(S.L / 2) + i.val * S.dx

/-- Value of `np.fft.fftfreq(n, d)` at bin `j`. -/
def fftfreq (n : ℕ) (d : ℝ) (j : Fin n) : ℝ := (fftfreqInt n j.val : ℝ) / (n * d)

/-- Momentum grid `k = 2π * np.fft.fftfreq(n, dx)` of the source. -/
def QuantumSystem.k (S : QuantumSystem) (j : Fin S.n) : ℝ :=
  2 * Real.pi * fftfreq S.n S.dx j

/-- Kinetic phase operator `U_T = np.exp(-1j * k**2 * dt / 2)`; computed once in
`__init__` from `n`, `L`, `dt` and never reassigned, hence a derived function. -/
def QuantumSystem.U_T (S : QuantumSystem) (j : Fin S.n) : ℂ :=
  Complex.exp (-Complex.I * ((S.k j : ℝ) : ℂ) ^ 2 * (S.dt : ℂ) / 2)

/-- The `QuantumSystem.__init__` constructor: zero wavefunction, zero potential,
all-ones potential phase operator. -/
def QuantumSystem.init (n : ℕ) (L dt : ℝ) : QuantumSystem :=
  { n := n, L := L, dt := dt
    psi := fun _ => 0
    V := fun _ => 0
    U_V := fun _ => 1 }

/-- The source's `set_double_well`: `V = barrier_height * ((x/x0)^2 - 1)^2` with
`x0 = separation/2`, and `U_V = np.exp(-1j * V * dt / 2)`. -/
def QuantumSystem.set_double_well (S : QuantumSystem)
    (barrier_height separation : ℝ) : QuantumSystem :=
  { S with
    V := fun i => barrier_height * ((S.x i / (separation / 2)) ^ 2 - 1) ^ 2
    U_V := fun i =>
      Complex.exp (-Complex.I *
        ((barrier_height * ((S.x i / (separation / 2)) ^ 2 - 1) ^ 2 : ℝ) : ℂ) *
        (S.dt : ℂ) / 2) }

/-- The source's `set_initial_gaussian`: a normalized Gaussian envelope times a
momentum phase, `psi = (1/(2πσ²))^(1/4) * exp(-(x-x0)²/(4σ²)) * exp(i p0 x)`. -/
def QuantumSystem.set_initial_gaussian (S : QuantumSystem)
    (x0 p0 sigma : ℝ) : QuantumSystem :=
  { S with
    psi := fun i =>
      (((1 / (2 * Real.pi * sigma ^ 2)) ^ ((1 : ℝ) / 4) : ℝ) : ℂ) *
        Complex.exp (((-((S.x i - x0) ^ 2) / (4 * sigma ^ 2) : ℝ) : ℂ)) *
        Complex.exp (Complex.I * (p0 : ℂ) * ((S.x i : ℝ) : ℂ)) }

/-- Orthonormal forward DFT, the semantics of `np.fft.fft(a, norm="ortho")`:
bin `j` is `(1/√n) Σ_m a_m exp(-2πi j m / n)`. -/
def fftOrtho (n : ℕ) (a : Fin n → ℂ) (j : Fin n) : ℂ :=
  ((Real.sqrt n : ℝ) : ℂ)⁻¹ *
    ∑ m : Fin n, a m * Complex.exp (-(2 * (Real.pi : ℂ) * Complex.I * j.val * m.val) / n)

/-- Orthonormal inverse DFT, the semantics of `np.fft.ifft(a, norm="ortho")`:
bin `j` is `(1/√n) Σ_m a_m exp(2πi j m / n)`. -/
def ifftOrtho (n : ℕ) (a : Fin n → ℂ) (j : Fin n) : ℂ :=
  ((Real.sqrt n : ℝ) : ℂ)⁻¹ *
    ∑ m : Fin n, a m * Complex.exp ((2 * (Real.pi : ℂ) * Complex.I * j.val * m.val) / n)

/-- One Strang step of the source:
`psi *= U_V; psi = ifft(fft(psi, ortho) * U_T, ortho); psi *= U_V`. -/
def QuantumSystem.step (S : QuantumSystem) : QuantumSystem :=
  { S with
    psi := fun i =>
      ifftOrtho S.n (fun j => fftOrtho S.n (fun m => S.psi m * S.U_V m) j * S.U_T j) i *
        S.U_V i }

/-- Total probability `np.sum(np.abs(psi)**2) * dx`. -/
def totalProb (S : QuantumSystem) : ℝ :=
  (∑ i : Fin S.n, Complex.abs (S.psi i) ^ 2) * S.dx

/-- Semantics of `np.fft.fftshift` on one axis: entry `t` is entry `(t - ⌊n/2⌋) mod n`
of the input (a roll by `⌊n/2⌋`). -/
def fftshift {α : Type} (n : ℕ) (a : Fin n → α) (t : Fin n) : α :=
  a (wrapIdx n ((t.val : ℤ) - (n / 2 : ℕ)) t.pos)

/-- The autocorrelation array of `wigner`:
`g_xy[i, t] = psi[(i + y_t) mod n] * conj(psi[(i - y_t) mod n])`. -/
def QuantumSystem.g_xy (S : QuantumSystem) (i t : Fin S.n) : ℂ :=
  S.psi (wrapIdx S.n ((i.val : ℤ) + yIdx S.n t) i.pos) *
    (starRingEnd ℂ) (S.psi (wrapIdx S.n ((i.val : ℤ) - yIdx S.n t) i.pos))

/-- The `G` array of `wigner`: centered orthonormal FFT over the offset axis,
`G = fftshift(fft(fftshift(g_xy, axes=1), axis=1, norm="ortho"), axes=1)`. -/
def QuantumSystem.wignerG (S : QuantumSystem) (i : Fin S.n) : Fin S.n → ℂ :=
  fftshift S.n (fftOrtho S.n (fftshift S.n (S.g_xy i)))

/-- The full-resolution Wigner map of the source, `W = np.real(G) / π`, indexed
position-major (position `i`, then momentum bin `t`). -/
def QuantumSystem.wignerW (S : QuantumSystem) (i t : Fin S.n) : ℝ :=
  (S.wignerG i t).re / Real.pi

/-- The momentum axis of `wigner`: `p = π * fftshift(np.fft.fftfreq(n, dx))`. -/
def QuantumSystem.wignerP (S : QuantumSystem) (t : Fin S.n) : ℝ :=
  Real.pi * fftshift S.n (fftfreq S.n S.dx) t

/-- The triple returned by `wigner`: `X, P = np.meshgrid(x, p)` and `W.T`, so
entry `[a][b]` holds `X = x[b]`, `P = p[a]`, and the transposed map `W[b][a]`. -/
def QuantumSystem.wigner (S : QuantumSystem) :
    (Fin S.n → Fin S.n → ℝ) × (Fin S.n → Fin S.n → ℝ) × (Fin S.n → Fin S.n → ℝ) :=
  (fun _ b => S.x b, fun a _ => S.wignerP a, fun a b => S.wignerW b a)

/-- Down-sampling of a full-resolution `n × n` frame to display resolution
`(my, mx)`, the source's `W[np.ix_(iy, ix)]` with `iy`, `ix` the linspace index
tables: pure index selection, no interpolation. -/
def downsample {n : ℕ} (hn : 0 < n) (my mx : ℕ) (W : Fin n → Fin n → ℝ)
    (r : Fin my) (c : Fin mx) : ℝ :=
  W (dsIdx n my hn r) (dsIdx n mx hn c)

/-- Unit complex exponential helper: `cexpE n A = exp(2πi A / n)` for an integer
numerator `A`; every DFT twiddle factor of the embedding is of this form. -/
def cexpE (n : ℕ) (A : ℤ) : ℂ :=
  Complex.exp (2 * (Real.pi : ℂ) * Complex.I * (A : ℂ) / (n : ℂ))

/-- Stage of the spec's step contract: elementwise multiplication by the
half-step potential phase `exp(-i V dt / 2)`. -/
def specPotentialHalfPhase (S : QuantumSystem) (ψ : Fin S.n → ℂ) : Fin S.n → ℂ :=
  fun i => ψ i * Complex.exp (-Complex.I * ((S.V i : ℝ) : ℂ) * (S.dt : ℂ) / 2)

/-- Stage of the spec's step contract: elementwise multiplication by the
full-step kinetic phase `exp(-i (k²/2) dt)`. -/
def specKineticFullPhase (S : QuantumSystem) (φ : Fin S.n → ℂ) : Fin S.n → ℂ :=
  fun j => φ j * Complex.exp (-Complex.I * ((S.k j ^ 2 / 2 : ℝ) : ℂ) * (S.dt : ℂ))

/-- The default single-n configuration of the source's `Knobs` applied through the
precompute pipeline: `n=128, L=12.0, dt=0.1`, double well `(3.0, 4.0)`, Gaussian
`(x0, p0, sigma) = (2.0, -1.0, 0.5)`. -/
def gaussianDefaultSystem : QuantumSystem :=
  ((QuantumSystem.init 128 12 0.1).set_double_well 3 4).set_initial_gaussian 2 (-1) 0.5

/-- Concrete two-sample system used to separate the returned Wigner map from its
transpose: `n = 2`, `psi = [1, 2]`. -/
def wignerDemoSystem : QuantumSystem :=
  { QuantumSystem.init 2 2 1 with psi := ![1, 2] }

/-- Row index of flat (raveled, C-order) vertex `v` of an `ny × nx` grid. -/
def rowOf (ny nx : ℕ) (hx : 0 < nx) (v : Fin (ny * nx)) : Fin ny :=
  ⟨v.val / nx, (Nat.div_lt_iff_lt_mul hx).mpr v.isLt⟩

/-- Column index of flat (raveled, C-order) vertex `v` of an `ny × nx` grid. -/
def colOf (ny nx : ℕ) (hx : 0 < nx) (v : Fin (ny * nx)) : Fin nx :=
  ⟨v.val % nx, Nat.mod_lt _ hx⟩

/-- The animation driver's data: the precomputed frame list (each a display-resolution
Wigner map) and the height scale. The nonemptiness proof records the source's
implicit precondition (its `__init__` reads `frames[0].shape`). -/
structure WignerAnimator (ny nx : ℕ) where
  frames : List (Fin ny → Fin nx → ℝ)
  z_scale : ℝ
  hne : frames ≠ []

/-- The Z value written at flat vertex `v` by `apply_frame fidx`:
`(z_scale * frames[clamped fidx]).ravel()[v]`. -/
def zVec {ny nx : ℕ} (A : WignerAnimator ny nx) (hx : 0 < nx) (fidx : ℤ)
    (v : Fin (ny * nx)) : ℝ :=
  A.z_scale * fetchFrame A.frames A.hne fidx (rowOf ny nx hx v) (colOf ny nx hx v)

/-- Mutable state touched by `apply_frame`: the mesh vertex coordinates (vertex,
component with 0 = X, 1 = Y, 2 = Z) and the cached `_co_buffer` (None until the
first call reads the mesh via `foreach_get`). -/
structure AnimState (N : ℕ) where
  mesh : Fin N → Fin 3 → ℝ
  cache : Option (Fin N → Fin 3 → ℝ)

/-- The coordinate buffer `apply_frame` works on: the cache if present, else the
mesh coordinates read on first use. -/
def bufOf {N : ℕ} (st : AnimState N) : Fin N → Fin 3 → ℝ :=
  st.cache.getD st.mesh

/-- One `apply_frame(fidx)` call: clamp the index, fill the buffer's Z slots
(`_co_buffer[2::3] = z`) and write the buffer back to the mesh (`foreach_set`). -/
def applyFrame {ny nx : ℕ} (A : WignerAnimator ny nx) (hx : 0 < nx)
    (st : AnimState (ny * nx)) (fidx : ℤ) : AnimState (ny * nx) :=
  { mesh := fun v c => if c.val = 2 then zVec A hx fidx v else bufOf st v c
    cache := some (fun v c => if c.val = 2 then zVec A hx fidx v else bufOf st v c) }

/-- A sequence of `apply_frame` calls, as issued by the frame-change handler. -/
def runFrames {ny nx : ℕ} (A : WignerAnimator ny nx) (hx : 0 < nx)
    (st : AnimState (ny * nx)) (l : List ℤ) : AnimState (ny * nx) :=
  l.foldl (applyFrame A hx) st

end

/-! Lemma layer: arithmetic of the unit exponentials `cexpE`. -/

theorem cexpE_add (n : ℕ) (A B : ℤ) : cexpE n (A + B) = cexpE n A * cexpE n B := by
  unfold cexpE
  rw [← Complex.exp_add]
  congr 1
  push_cast
  ring

theorem cexpE_natCast_mul (n : ℕ) (k : ℤ) : cexpE n ((n : ℤ) * k) = 1 := by
  rcases Nat.eq_zero_or_pos n with h | h
  · subst h
    unfold cexpE
    norm_num
  · unfold cexpE
    have hn : (n : ℂ) ≠ 0 := Nat.cast_ne_zero.mpr h.ne'
    have harg : 2 * (Real.pi : ℂ) * Complex.I * (((n : ℤ) * k : ℤ) : ℂ) / (n : ℂ) =
        (k : ℂ) * (2 * (Real.pi : ℂ) * Complex.I) := by
      push_cast
      field_simp
      ring
    rw [harg, Complex.exp_int_mul_two_pi_mul_I]

theorem cexpE_congr (n : ℕ) {A B : ℤ} (h : A % (n : ℤ) = B % (n : ℤ)) :
    cexpE n A = cexpE n B := by
  obtain ⟨k, hk⟩ : (n : ℤ) ∣ (B - A) :=
    Int.ModEq.dvd (show Int.ModEq (n : ℤ) A B from h)
  have hB : B = A + (n : ℤ) * k := by omega
  rw [hB, cexpE_add, cexpE_natCast_mul, mul_one]

theorem cexpE_nat_mul (n j : ℕ) (A : ℤ) : cexpE n ((j : ℤ) * A) = cexpE n A ^ j := by
  unfold cexpE
  rw [← Complex.exp_nat_mul]
  congr 1
  push_cast
  ring

theorem conj_cexpE (n : ℕ) (A : ℤ) : (starRingEnd ℂ) (cexpE n A) = cexpE n (-A) := by
  unfold cexpE
  rw [← Complex.exp_conj]
  congr 1
  simp only [map_div₀, map_mul, Complex.conj_I, Complex.conj_ofReal, map_ofNat,
    map_intCast, map_natCast]
  push_cast
  ring

theorem cexpE_ne_one (n : ℕ) (hn : 0 < n) {d : ℤ} (hd : ¬ (n : ℤ) ∣ d) :
    cexpE n d ≠ 1 := by
  intro h1
  apply hd
  unfold cexpE at h1
  rw [Complex.exp_eq_one_iff] at h1
  obtain ⟨m, hm⟩ := h1
  have hn0 : (n : ℂ) ≠ 0 := Nat.cast_ne_zero.mpr hn.ne'
  have hπ : (Real.pi : ℂ) ≠ 0 := Complex.ofReal_ne_zero.mpr Real.pi_ne_zero
  have h2 : (2 : ℂ) * (Real.pi : ℂ) * Complex.I ≠ 0 :=
    mul_ne_zero (mul_ne_zero two_ne_zero hπ) Complex.I_ne_zero
  have hm2 : 2 * (Real.pi : ℂ) * Complex.I * (d : ℂ) =
      (m : ℂ) * (2 * (Real.pi : ℂ) * Complex.I) * (n : ℂ) := by
    have := congrArg (fun z => z * (n : ℂ)) hm
    simpa [div_mul_cancel₀, hn0] using this
  have hkey : (d : ℂ) = (n : ℂ) * (m : ℂ) := by
    apply mul_left_cancel₀ h2
    linear_combination hm2
  refine ⟨m, ?_⟩
  exact_mod_cast hkey

theorem sum_cexpE_mul (n : ℕ) (d : ℤ) :
    ∑ j : Fin n, cexpE n ((j.val : ℤ) * d) = if (n : ℤ) ∣ d then (n : ℂ) else 0 := by
  rcases Nat.eq_zero_or_pos n with h | hn
  · subst h
    simp
  · by_cases hd : (n : ℤ) ∣ d
    · obtain ⟨e, he⟩ := hd
      have hone : ∀ j : Fin n, cexpE n ((j.val : ℤ) * d) = 1 := by
        intro j
        have harg : (j.val : ℤ) * d = (n : ℤ) * ((j.val : ℤ) * e) := by
          rw [he]; ring
        rw [harg, cexpE_natCast_mul]
      rw [Finset.sum_congr rfl fun j _ => hone j, if_pos ⟨e, he⟩]
      simp
    · have hterm : ∀ j : Fin n, cexpE n ((j.val : ℤ) * d) = cexpE n d ^ j.val :=
        fun j => cexpE_nat_mul n j.val d
      rw [Finset.sum_congr rfl fun j _ => hterm j]
      rw [Fin.sum_univ_eq_sum_range (fun j => cexpE n d ^ j) n]
      rw [geom_sum_eq (cexpE_ne_one n hn hd) n]
      have hpow : cexpE n d ^ n = 1 := by
        rw [← cexpE_nat_mul, show ((n : ℕ) : ℤ) * d = (n : ℤ) * d from rfl,
          cexpE_natCast_mul]
      rw [hpow, if_neg hd]
      simp

/-! Lemma layer: unitarity (Plancherel) of the orthonormal DFT pair. -/

theorem fftOrtho_cexpE (n : ℕ) (a : Fin n → ℂ) (j : Fin n) :
    fftOrtho n a j =
      ((Real.sqrt n : ℝ) : ℂ)⁻¹ * ∑ m : Fin n, a m * cexpE n (-((j.val : ℤ) * m.val)) := by
  unfold fftOrtho cexpE
  congr 1
  refine Finset.sum_congr rfl fun m _ => ?_
  have harg : -(2 * (Real.pi : ℂ) * Complex.I * (j.val : ℂ) * (m.val : ℂ)) / (n : ℂ) =
      2 * (Real.pi : ℂ) * Complex.I * ((-((j.val : ℤ) * m.val) : ℤ) : ℂ) / (n : ℂ) := by
    push_cast
    ring
  rw [harg]

theorem ifftOrtho_cexpE (n : ℕ) (a : Fin n → ℂ) (j : Fin n) :
    ifftOrtho n a j =
      ((Real.sqrt n : ℝ) : ℂ)⁻¹ * ∑ m : Fin n, a m * cexpE n ((j.val : ℤ) * m.val) := by
  unfold ifftOrtho cexpE
  congr 1
  refine Finset.sum_congr rfl fun m _ => ?_
  have harg : 2 * (Real.pi : ℂ) * Complex.I * (j.val : ℂ) * (m.val : ℂ) / (n : ℂ) =
      2 * (Real.pi : ℂ) * Complex.I * (((j.val : ℤ) * m.val : ℤ) : ℂ) / (n : ℂ) := by
    push_cast
    ring
  rw [harg]

theorem natCast_dvd_sub_iff {n : ℕ} (m m' : Fin n) :
    ((n : ℤ) ∣ ((m.val : ℤ) - m'.val)) ↔ m = m' := by
  constructor
  · intro hdvd
    rcases hdvd with ⟨k, hk⟩
    have hm := m.isLt
    have hm' := m'.isLt
    have h0 : ((m.val : ℤ) - m'.val) = 0 := by
      rcases lt_trichotomy k 0 with hk0 | hk0 | hk0
      · have hle : (n : ℤ) * k ≤ (n : ℤ) * (-1) :=
          mul_le_mul_of_nonneg_left (by omega) (by omega)
        omega
      · subst hk0
        omega
      · have hle : (n : ℤ) * 1 ≤ (n : ℤ) * k :=
          mul_le_mul_of_nonneg_left (by omega) (by omega)
        omega
    exact Fin.ext (by omega)
  · rintro rfl
    simp

theorem sum_normSq_kernel (n : ℕ) (ε : ℤ) (hε : ε = 1 ∨ ε = -1) (a : Fin n → ℂ) :
    ∑ j : Fin n, Complex.normSq (∑ m : Fin n, a m * cexpE n (ε * ((j.val : ℤ) * m.val)))
      = (n : ℝ) * ∑ m : Fin n, Complex.normSq (a m) := by
  have key : ∑ j : Fin n,
      ((∑ m : Fin n, a m * cexpE n (ε * ((j.val : ℤ) * m.val))) *
        (starRingEnd ℂ) (∑ m : Fin n, a m * cexpE n (ε * ((j.val : ℤ) * m.val))))
      = (n : ℂ) * ∑ m : Fin n, a m * (starRingEnd ℂ) (a m) := by
    have hconj : ∀ j : Fin n,
        (starRingEnd ℂ) (∑ m : Fin n, a m * cexpE n (ε * ((j.val : ℤ) * m.val))) =
          ∑ m' : Fin n, (starRingEnd ℂ) (a m') * cexpE n (-(ε * ((j.val : ℤ) * m'.val))) := by
      intro j
      rw [map_sum]
      refine Finset.sum_congr rfl fun m' _ => ?_
      rw [map_mul, conj_cexpE]
    have hexpand : ∀ j : Fin n,
        (∑ m : Fin n, a m * cexpE n (ε * ((j.val : ℤ) * m.val))) *
          (∑ m' : Fin n, (starRingEnd ℂ) (a m') * cexpE n (-(ε * ((j.val : ℤ) * m'.val)))) =
        ∑ m : Fin n, ∑ m' : Fin n,
          (a m * (starRingEnd ℂ) (a m')) * cexpE n ((j.val : ℤ) * (ε * ((m.val : ℤ) - m'.val))) := by
      intro j
      rw [Finset.sum_mul_sum]
      refine Finset.sum_congr rfl fun m _ => ?_
      refine Finset.sum_congr rfl fun m' _ => ?_
      rw [show (a m * cexpE n (ε * ((j.val : ℤ) * m.val))) *
            ((starRingEnd ℂ) (a m') * cexpE n (-(ε * ((j.val : ℤ) * m'.val)))) =
          (a m * (starRingEnd ℂ) (a m')) *
            (cexpE n (ε * ((j.val : ℤ) * m.val)) * cexpE n (-(ε * ((j.val : ℤ) * m'.val))))
        from by ring]
      rw [← cexpE_add]
      congr 1
      ring_nf
    calc ∑ j : Fin n,
        ((∑ m : Fin n, a m * cexpE n (ε * ((j.val : ℤ) * m.val))) *
          (starRingEnd ℂ) (∑ m : Fin n, a m * cexpE n (ε * ((j.val : ℤ) * m.val))))
        = ∑ j : Fin n, ∑ m : Fin n, ∑ m' : Fin n,
            (a m * (starRingEnd ℂ) (a m')) *
              cexpE n ((j.val : ℤ) * (ε * ((m.val : ℤ) - m'.val))) := by
          refine Finset.sum_congr rfl fun j _ => ?_
          rw [hconj j, hexpand j]
      _ = ∑ m : Fin n, ∑ m' : Fin n,
            (a m * (starRingEnd ℂ) (a m')) *
              ∑ j : Fin n, cexpE n ((j.val : ℤ) * (ε * ((m.val : ℤ) - m'.val))) := by
          rw [Finset.sum_comm]
          refine Finset.sum_congr rfl fun m _ => ?_
          rw [Finset.sum_comm]
          refine Finset.sum_congr rfl fun m' _ => ?_
          rw [Finset.mul_sum]
      _ = ∑ m : Fin n, ∑ m' : Fin n,
            (a m * (starRingEnd ℂ) (a m')) *
              (if m = m' then (n : ℂ) else 0) := by
          refine Finset.sum_congr rfl fun m _ => ?_
          refine Finset.sum_congr rfl fun m' _ => ?_
          rw [sum_cexpE_mul]
          congr 1
          have hiff : ((n : ℤ) ∣ ε * ((m.val : ℤ) - m'.val)) ↔ m = m' := by
            rcases hε with rfl | rfl
            · rw [one_mul]
              exact natCast_dvd_sub_iff m m'
            · rw [neg_one_mul, Int.dvd_neg]
              exact natCast_dvd_sub_iff m m'
          simp only [hiff]
      _ = (n : ℂ) * ∑ m : Fin n, a m * (starRingEnd ℂ) (a m) := by
          rw [Finset.mul_sum]
          refine Finset.sum_congr rfl fun m _ => ?_
          simp only [mul_ite, mul_zero]
          rw [Finset.sum_ite_eq]
          simp [mul_comm]
  have hcast : ((∑ j : Fin n, Complex.normSq
        (∑ m : Fin n, a m * cexpE n (ε * ((j.val : ℤ) * m.val))) : ℝ) : ℂ)
      = (((n : ℝ) * ∑ m : Fin n, Complex.normSq (a m) : ℝ) : ℂ) := by
    push_cast
    rw [Finset.sum_congr rfl fun j _ => (Complex.mul_conj _).symm, key,
      Finset.sum_congr rfl fun m _ => (Complex.mul_conj _).symm]
  exact_mod_cast hcast

theorem sum_abs_sq_fftOrtho (n : ℕ) (a : Fin n → ℂ) :
    ∑ j : Fin n, Complex.abs (fftOrtho n a j) ^ 2 = ∑ m : Fin n, Complex.abs (a m) ^ 2 := by
  rcases Nat.eq_zero_or_pos n with rfl | hn
  · simp
  have hb : ∀ j : Fin n, fftOrtho n a j =
      ((Real.sqrt n : ℝ) : ℂ)⁻¹ *
        ∑ m : Fin n, a m * cexpE n ((-1) * ((j.val : ℤ) * m.val)) := by
    intro j
    rw [fftOrtho_cexpE]
    congr 1
    refine Finset.sum_congr rfl fun m _ => ?_
    congr 1
    congr 1
    ring
  simp only [Complex.sq_abs]
  rw [Finset.sum_congr rfl fun j _ => congrArg Complex.normSq (hb j)]
  have hsqrt : Real.sqrt n * Real.sqrt n = (n : ℝ) :=
    Real.mul_self_sqrt (Nat.cast_nonneg n)
  have hnn : (n : ℝ) ≠ 0 := Nat.cast_ne_zero.mpr hn.ne'
  calc ∑ j : Fin n, Complex.normSq
        (((Real.sqrt n : ℝ) : ℂ)⁻¹ *
          ∑ m : Fin n, a m * cexpE n ((-1) * ((j.val : ℤ) * m.val)))
      = ∑ j : Fin n, (Real.sqrt n * Real.sqrt n)⁻¹ *
          Complex.normSq (∑ m : Fin n, a m * cexpE n ((-1) * ((j.val : ℤ) * m.val))) := by
        refine Finset.sum_congr rfl fun j _ => ?_
        rw [Complex.normSq_mul, ← Complex.ofReal_inv, Complex.normSq_ofReal, mul_inv]
    _ = (n : ℝ)⁻¹ * ∑ j : Fin n,
          Complex.normSq (∑ m : Fin n, a m * cexpE n ((-1) * ((j.val : ℤ) * m.val))) := by
        rw [hsqrt, Finset.mul_sum]
    _ = ∑ m : Fin n, Complex.normSq (a m) := by
        rw [sum_normSq_kernel n (-1) (Or.inr rfl) a]
        field_simp

theorem sum_abs_sq_ifftOrtho (n : ℕ) (a : Fin n → ℂ) :
    ∑ j : Fin n, Complex.abs (ifftOrtho n a j) ^ 2 = ∑ m : Fin n, Complex.abs (a m) ^ 2 := by
  rcases Nat.eq_zero_or_pos n with rfl | hn
  · simp
  have hb : ∀ j : Fin n, ifftOrtho n a j =
      ((Real.sqrt n : ℝ) : ℂ)⁻¹ *
        ∑ m : Fin n, a m * cexpE n ((1 : ℤ) * ((j.val : ℤ) * m.val)) := by
    intro j
    rw [ifftOrtho_cexpE]
    congr 1
    refine Finset.sum_congr rfl fun m _ => ?_
    congr 1
    congr 1
    ring
  simp only [Complex.sq_abs]
  rw [Finset.sum_congr rfl fun j _ => congrArg Complex.normSq (hb j)]
  have hsqrt : Real.sqrt n * Real.sqrt n = (n : ℝ) :=
    Real.mul_self_sqrt (Nat.cast_nonneg n)
  have hnn : (n : ℝ) ≠ 0 := Nat.cast_ne_zero.mpr hn.ne'
  calc ∑ j : Fin n, Complex.normSq
        (((Real.sqrt n : ℝ) : ℂ)⁻¹ *
          ∑ m : Fin n, a m * cexpE n ((1 : ℤ) * ((j.val : ℤ) * m.val)))
      = ∑ j : Fin n, (Real.sqrt n * Real.sqrt n)⁻¹ *
          Complex.normSq (∑ m : Fin n, a m * cexpE n ((1 : ℤ) * ((j.val : ℤ) * m.val))) := by
        refine Finset.sum_congr rfl fun j _ => ?_
        rw [Complex.normSq_mul, ← Complex.ofReal_inv, Complex.normSq_ofReal, mul_inv]
    _ = (n : ℝ)⁻¹ * ∑ j : Fin n,
          Complex.normSq (∑ m : Fin n, a m * cexpE n ((1 : ℤ) * ((j.val : ℤ) * m.val))) := by
        rw [hsqrt, Finset.mul_sum]
    _ = ∑ m : Fin n, Complex.normSq (a m) := by
        rw [sum_normSq_kernel n 1 (Or.inl rfl) a]
        field_simp

/-! Lemma layer: the phase operators have unit modulus; the step conserves
total probability exactly in real arithmetic. -/

theorem abs_U_T (S : QuantumSystem) (j : Fin S.n) : Complex.abs (S.U_T j) = 1 := by
  unfold QuantumSystem.U_T
  have harg : -Complex.I * ((S.k j : ℝ) : ℂ) ^ 2 * (S.dt : ℂ) / 2
      = ((-(S.k j ^ 2 * S.dt) / 2 : ℝ) : ℂ) * Complex.I := by
    push_cast
    ring
  rw [harg, Complex.abs_exp_ofReal_mul_I]

theorem abs_U_V_init (n : ℕ) (L dt : ℝ) (i : Fin n) :
    Complex.abs ((QuantumSystem.init n L dt).U_V i) = 1 := by
  simp [QuantumSystem.init]

theorem abs_U_V_set_double_well (S : QuantumSystem) (H sep : ℝ) (i : Fin S.n) :
    Complex.abs ((S.set_double_well H sep).U_V i) = 1 := by
  show Complex.abs (Complex.exp
    (-Complex.I * ((H * ((S.x i / (sep / 2)) ^ 2 - 1) ^ 2 : ℝ) : ℂ) * (S.dt : ℂ) / 2)) = 1
  have harg : -Complex.I * ((H * ((S.x i / (sep / 2)) ^ 2 - 1) ^ 2 : ℝ) : ℂ) * (S.dt : ℂ) / 2
      = ((-(H * ((S.x i / (sep / 2)) ^ 2 - 1) ^ 2 * S.dt) / 2 : ℝ) : ℂ) * Complex.I := by
    push_cast
    ring
  rw [harg, Complex.abs_exp_ofReal_mul_I]

theorem totalProb_step (S : QuantumSystem)
    (hU : ∀ i, Complex.abs (S.U_V i) = 1) :
    totalProb S.step = totalProb S := by
  unfold totalProb
  congr 1
  show (∑ i : Fin S.n,
      Complex.abs (ifftOrtho S.n
        (fun j => fftOrtho S.n (fun m => S.psi m * S.U_V m) j * S.U_T j) i * S.U_V i) ^ 2)
    = ∑ i : Fin S.n, Complex.abs (S.psi i) ^ 2
  calc ∑ i : Fin S.n,
        Complex.abs (ifftOrtho S.n
          (fun j => fftOrtho S.n (fun m => S.psi m * S.U_V m) j * S.U_T j) i * S.U_V i) ^ 2
      = ∑ i : Fin S.n,
          Complex.abs (ifftOrtho S.n
            (fun j => fftOrtho S.n (fun m => S.psi m * S.U_V m) j * S.U_T j) i) ^ 2 := by
        refine Finset.sum_congr rfl fun i _ => ?_
        rw [map_mul, hU, mul_one]
    _ = ∑ j : Fin S.n,
          Complex.abs (fftOrtho S.n (fun m => S.psi m * S.U_V m) j * S.U_T j) ^ 2 :=
        sum_abs_sq_ifftOrtho S.n _
    _ = ∑ j : Fin S.n, Complex.abs (fftOrtho S.n (fun m => S.psi m * S.U_V m) j) ^ 2 := by
        refine Finset.sum_congr rfl fun j _ => ?_
        rw [map_mul, abs_U_T, mul_one]
    _ = ∑ m : Fin S.n, Complex.abs (S.psi m * S.U_V m) ^ 2 :=
        sum_abs_sq_fftOrtho S.n _
    _ = ∑ m : Fin S.n, Complex.abs (S.psi m) ^ 2 := by
        refine Finset.sum_congr rfl fun m _ => ?_
        rw [map_mul, hU, mul_one]

theorem totalProb_iterate :
    ∀ (m : ℕ) (S : QuantumSystem), (∀ i, Complex.abs (S.U_V i) = 1) →
      totalProb (QuantumSystem.step^[m] S) = totalProb S := by
  intro m
  induction m with
  | zero => intro S hU; rfl
  | succ m ih =>
      intro S hU
      rw [Function.iterate_succ_apply]
      rw [ih S.step fun i => hU i]
      exact totalProb_step S hU

/-! Claim C3. -/

/-- C3: after `__init__` and after `set_double_well` (for every real
`barrier_height`, `separation`, `dt`), every sample of the potential phase
operator `U_V` and of the kinetic phase operator `U_T` has complex modulus
exactly 1. -/
theorem claim_phase_operators_unit_modulus :
    (∀ (n : ℕ) (L dt : ℝ) (i : Fin n),
        Complex.abs ((QuantumSystem.init n L dt).U_V i) = 1) ∧
    (∀ (S : QuantumSystem) (barrier_height separation : ℝ) (i : Fin S.n),
        Complex.abs ((S.set_double_well barrier_height separation).U_V i) = 1) ∧
    (∀ (S : QuantumSystem) (j : Fin S.n), Complex.abs (S.U_T j) = 1) :=
  ⟨abs_U_V_init, abs_U_V_set_double_well, abs_U_T⟩

/-! Claim C2. -/

/-- C2: for every state whose stored potential phase operator is a pure phase
(as holds for every constructed system) and every number of steps, the total
probability `sum(|psi|²) * dx` is exactly unchanged by `step`; in particular
for the default Gaussian system (`n=128, L=12.0, dt=0.1`) the total
probability after 300 steps differs from its initial value by less than 1e-6
(in exact arithmetic the difference is 0). -/
theorem claim_step_conserves_total_probability :
    (∀ (S : QuantumSystem), (∀ i, Complex.abs (S.U_V i) = 1) →
      ∀ m : ℕ, totalProb (QuantumSystem.step^[m] S) = totalProb S) ∧
    |totalProb (QuantumSystem.step^[300] gaussianDefaultSystem) -
        totalProb gaussianDefaultSystem| < 1 / 1000000 := by
  constructor
  · intro S hU m
    exact totalProb_iterate m S hU
  · have hU : ∀ i, Complex.abs (gaussianDefaultSystem.U_V i) = 1 := fun i =>
      abs_U_V_set_double_well (QuantumSystem.init 128 12 0.1) 3 4 i
    rw [totalProb_iterate 300 gaussianDefaultSystem hU, sub_self, abs_zero]
    norm_num

/-- Witness for C2: the conservation statement applied to a concrete system
(the default Gaussian system itself), with its phase hypothesis discharged. -/
theorem claim_step_conserves_total_probability_witness :
    totalProb (QuantumSystem.step^[2] gaussianDefaultSystem) =
      totalProb gaussianDefaultSystem :=
  claim_step_conserves_total_probability.1 gaussianDefaultSystem
    (fun i => abs_U_V_set_double_well (QuantumSystem.init 128 12 0.1) 3 4 i) 2

/-! Claim C5. -/

/-- C5: the momentum grid `k` is `2π · fftfreqInt / (n·dx)` in the FFT's native
bin order: bin 0 carries frequency 0, bins with `2j < n` carry the ascending
positive frequency `j`, the remaining bins wrap to the negative frequency
`j - n`; the grid is not spatially sorted (not monotone for `n ≥ 2`); and the
DFT kernel at bin `j` coincides with the kernel of frequency `fftfreqInt n j`,
so the elementwise product applies the kinetic phase bin-for-bin. -/
theorem claim_momentum_grid_fft_order :
    (∀ (S : QuantumSystem) (j : Fin S.n),
        S.k j = 2 * Real.pi * ((fftfreqInt S.n j.val : ℝ) / (S.n * S.dx))) ∧
    (∀ n : ℕ, fftfreqInt n 0 = 0) ∧
    (∀ n j : ℕ, 2 * j < n → fftfreqInt n j = (j : ℤ)) ∧
    (∀ n j : ℕ, n ≤ 2 * j → fftfreqInt n j = (j : ℤ) - (n : ℤ)) ∧
    (∀ n j m : ℕ, cexpE n (-((j : ℤ) * m)) = cexpE n (-(fftfreqInt n j * m))) ∧
    (∀ n : ℕ, 2 ≤ n → ¬ Monotone fun j : Fin n => fftfreqInt n j.val) := by
  refine ⟨fun S j => rfl, ?_, ?_, ?_, ?_, ?_⟩
  · intro n
    unfold fftfreqInt
    split <;> omega
  · intro n j h
    unfold fftfreqInt
    rw [if_pos h]
  · intro n j h
    unfold fftfreqInt
    rw [if_neg (by omega)]
  · intro n j m
    apply cexpE_congr
    have hdvd : (n : ℤ) ∣ (-(fftfreqInt n j * m) - -((j : ℤ) * m)) := by
      unfold fftfreqInt
      split
      · exact ⟨0, by ring⟩
      · exact ⟨(m : ℤ), by ring⟩
    exact Int.modEq_iff_dvd.mpr hdvd
  · intro n hn hmono
    have h0 : (0 : ℕ) < n := by omega
    have h1 : n - 1 < n := by omega
    have hle : (⟨0, h0⟩ : Fin n) ≤ ⟨n - 1, h1⟩ := by
      rw [Fin.mk_le_mk]
      omega
    have := hmono hle
    simp only at this
    unfold fftfreqInt at this
    split_ifs at this <;> omega

/-- Witness for C5: the bin-order facts instantiated at `n = 4`. -/
theorem claim_momentum_grid_fft_order_witness :
    fftfreqInt 4 1 = 1 ∧ fftfreqInt 4 3 = (3 : ℤ) - 4 ∧
      ¬ Monotone fun j : Fin 4 => fftfreqInt 4 j.val :=
  ⟨claim_momentum_grid_fft_order.2.2.1 4 1 (by norm_num),
   claim_momentum_grid_fft_order.2.2.2.1 4 3 (by norm_num),
   claim_momentum_grid_fft_order.2.2.2.2.2 4 (by norm_num)⟩

/-! Claim C7. -/

/-- C7: down-sampling an `n × n` Wigner map is pure nearest-index selection on
evenly spaced index tables: entry `(r, c)` is `W[iy r][ix c]` with
`iy r = ⌊r(n-1)/(my-1)⌋`, `ix c = ⌊c(n-1)/(mx-1)⌋`; the index tables start at 0,
end at `n-1`, are monotone, and stay below `n` for every source size `n`, so the
result always has the fixed display shape; and the function is deterministic. -/
theorem claim_downsample_selection :
    (∀ (n my mx : ℕ) (hn : 0 < n) (W : Fin n → Fin n → ℝ) (r : Fin my) (c : Fin mx),
        downsample hn my mx W r c = W (dsIdx n my hn r) (dsIdx n mx hn c)) ∧
    (∀ (n m : ℕ) (hn : 0 < n) (t : Fin m), (dsIdx n m hn t).val = linIdx n m t.val) ∧
    (∀ n m t : ℕ, 2 ≤ m → linIdx n m t = t * (n - 1) / (m - 1)) ∧
    (∀ n m : ℕ, linIdx n m 0 = 0) ∧
    (∀ n m : ℕ, 0 < n → 2 ≤ m → linIdx n m (m - 1) = n - 1) ∧
    (∀ n m t t' : ℕ, t ≤ t' → linIdx n m t ≤ linIdx n m t') ∧
    (∀ n m : ℕ, 0 < n → ∀ t : Fin m, linIdx n m t.val < n) ∧
    (∀ (n my mx : ℕ) (hn : 0 < n) (W : Fin n → Fin n → ℝ),
        downsample hn my mx W = downsample hn my mx W) := by
  refine ⟨fun n my mx hn W r c => rfl, fun n m hn t => rfl, ?_, ?_, ?_, ?_, ?_,
    fun n my mx _ W => rfl⟩
  · intro n m t h
    unfold linIdx
    rw [if_neg (by omega)]
  · intro n m
    unfold linIdx
    split <;> simp
  · intro n m hn hm
    unfold linIdx
    rw [if_neg (by omega)]
    exact Nat.mul_div_cancel_left _ (by omega)
  · intro n m t t' h
    unfold linIdx
    split
    · exact le_rfl
    · exact Nat.div_le_div_right (Nat.mul_le_mul_right _ h)
  · intro n m hn t
    exact (dsIdx n m hn t).isLt

/-- Witness for C7: concrete down-sampling of a 5-point grid to 3 points picks
indices 0, 2, 4, and the selection identity holds on a concrete map. -/
theorem claim_downsample_selection_witness :
    linIdx 5 3 1 = 1 * (5 - 1) / (3 - 1) ∧ linIdx 5 3 2 = 4 ∧ linIdx 5 3 0 = 0 ∧
      downsample (by norm_num : (0:ℕ) < 5) 3 3 (fun _ _ => (7 : ℝ)) 1 2 =
        (fun _ _ => (7 : ℝ)) (dsIdx 5 3 (by norm_num) 1) (dsIdx 5 3 (by norm_num) 2) :=
  ⟨claim_downsample_selection.2.2.1 5 3 1 (by norm_num),
   claim_downsample_selection.2.2.2.2.1 5 3 (by norm_num) (by norm_num),
   claim_downsample_selection.2.2.2.1 5 3,
   claim_downsample_selection.1 5 3 3 (by norm_num) (fun _ _ => (7 : ℝ)) 1 2⟩

/-! Claim C8. -/

theorem list_get_val_congr {α : Type} (l : List α) (i j : Fin l.length)
    (h : i.val = j.val) : l.get i = l.get j := by
  rw [Fin.ext h]

/-- C8: for every completed frame list and every integer index, `apply_frame`
clamps the index into `[0, total-1]` and never errors: index `-1` fetches
frame 0 and index `total` fetches the last frame. -/
theorem claim_frame_index_clamp {α : Type} (frames : List α) (hne : frames ≠ [])
    (fidx : ℤ) :
    0 ≤ clampIdx frames.length fidx ∧
    clampIdx frames.length fidx < (frames.length : ℤ) ∧
    clampIdx frames.length (-1) = 0 ∧
    clampIdx frames.length (frames.length : ℤ) = (frames.length : ℤ) - 1 ∧
    fetchFrame frames hne (-1) = frames.get ⟨0, List.length_pos.mpr hne⟩ ∧
    fetchFrame frames hne (frames.length : ℤ) =
      frames.get ⟨frames.length - 1, by
        have := List.length_pos.mpr hne
        omega⟩ := by
  have hL : 0 < frames.length := List.length_pos.mpr hne
  have hcneg : clampIdx frames.length (-1) = 0 := by
    unfold clampIdx
    rw [min_eq_right (by omega), max_eq_left (by omega)]
  have hctop : clampIdx frames.length (frames.length : ℤ) = (frames.length : ℤ) - 1 := by
    unfold clampIdx
    rw [min_eq_left (by omega), max_eq_right (by omega)]
  refine ⟨le_max_left _ _, ?_, hcneg, hctop, ?_, ?_⟩
  · have h2 : clampIdx frames.length fidx ≤ (frames.length : ℤ) - 1 :=
      max_le (by omega) (min_le_left _ _)
    omega
  · refine list_get_val_congr frames _ _ ?_
    show (clampIdx frames.length (-1)).toNat = 0
    rw [hcneg]
    rfl
  · refine list_get_val_congr frames _ _ ?_
    show (clampIdx frames.length (frames.length : ℤ)).toNat = frames.length - 1
    rw [hctop]
    omega

/-- Witness for C8: a concrete three-frame list, scrubbed to `-1` and to
`total = 3`. -/
theorem claim_frame_index_clamp_witness :
    clampIdx ([10, 20, 30] : List ℤ).length (-1) = 0 ∧
      clampIdx ([10, 20, 30] : List ℤ).length 3 = 2 ∧
      fetchFrame ([10, 20, 30] : List ℤ) (by simp) (-1) = 10 ∧
      fetchFrame ([10, 20, 30] : List ℤ) (by simp) 3 = 30 := by
  have h := claim_frame_index_clamp ([10, 20, 30] : List ℤ) (by simp) 0
  refine ⟨h.2.2.1, ?_, ?_, ?_⟩
  · have := h.2.2.2.1
    norm_num at this
    exact_mod_cast this
  · rw [h.2.2.2.2.1]
    rfl
  · have := h.2.2.2.2.2
    norm_num at this
    rw [this]

/-! Claim C1. -/

/-- C1: for every system whose stored potential phase operator has the
constructed form `exp(-i V dt/2)`, one `step` call replaces the wavefunction by
exactly the symmetric Strang split sequence — half-step potential phase,
orthonormal forward FFT, full-step kinetic phase `exp(-i (k²/2) dt)`,
orthonormal inverse FFT, half-step potential phase again — and changes no other
field (in-place update of `psi` only). -/
theorem claim_step_strang_sequence (S : QuantumSystem)
    (hUV : ∀ i, S.U_V i =
      Complex.exp (-Complex.I * ((S.V i : ℝ) : ℂ) * (S.dt : ℂ) / 2)) :
    S.step.psi =
      specPotentialHalfPhase S
        (ifftOrtho S.n
          (specKineticFullPhase S
            (fftOrtho S.n (specPotentialHalfPhase S S.psi)))) ∧
    S.step = { S with psi := S.step.psi } := by
  have hUT : ∀ j : Fin S.n, S.U_T j =
      Complex.exp (-Complex.I * ((S.k j ^ 2 / 2 : ℝ) : ℂ) * (S.dt : ℂ)) := by
    intro j
    unfold QuantumSystem.U_T
    congr 1
    push_cast
    ring
  constructor
  · funext i
    show ifftOrtho S.n
        (fun j => fftOrtho S.n (fun m => S.psi m * S.U_V m) j * S.U_T j) i * S.U_V i = _
    unfold specPotentialHalfPhase specKineticFullPhase
    rw [hUV i]
    congr 2
    funext j
    rw [hUT j]
    congr 2
    funext m
    rw [hUV m]
  · rfl

/-- Witness for C1: the Strang factorization at a concrete constructed system. -/
theorem claim_step_strang_sequence_witness :
    ((QuantumSystem.init 1 1 1).set_double_well 3 4).step.psi =
      specPotentialHalfPhase ((QuantumSystem.init 1 1 1).set_double_well 3 4)
        (ifftOrtho ((QuantumSystem.init 1 1 1).set_double_well 3 4).n
          (specKineticFullPhase ((QuantumSystem.init 1 1 1).set_double_well 3 4)
            (fftOrtho ((QuantumSystem.init 1 1 1).set_double_well 3 4).n
              (specPotentialHalfPhase ((QuantumSystem.init 1 1 1).set_double_well 3 4)
                ((QuantumSystem.init 1 1 1).set_double_well 3 4).psi)))) :=
  (claim_step_strang_sequence ((QuantumSystem.init 1 1 1).set_double_well 3 4)
    (fun _ => rfl)).1

/-! Claim C10. -/

theorem bufOf_runFrames_xy {ny nx : ℕ} (A : WignerAnimator ny nx) (hx : 0 < nx) :
    ∀ (l : List ℤ) (st : AnimState (ny * nx)) (v : Fin (ny * nx)) (c : Fin 3),
      c.val ≠ 2 → bufOf (runFrames A hx st l) v c = bufOf st v c := by
  intro l
  induction l with
  | nil => intro st v c h; rfl
  | cons f l ih =>
      intro st v c h
      show bufOf (runFrames A hx (applyFrame A hx st f) l) v c = _
      rw [ih (applyFrame A hx st f) v c h]
      show (if c.val = 2 then zVec A hx f v else bufOf st v c) = bufOf st v c
      rw [if_neg h]

/-- C10: starting from a fresh animator state (no cached buffer) on a mesh whose
vertex count matches the frame shape, any nonempty sequence of `apply_frame`
calls leaves the X and Y components of every vertex exactly as first read, and
sets each vertex's Z component to `z_scale` times the clamped last frame's
raveled value. -/
theorem claim_apply_frame_touches_only_z {ny nx : ℕ} (A : WignerAnimator ny nx)
    (hx : 0 < nx) (st0 : AnimState (ny * nx)) (h0 : st0.cache = none)
    (l : List ℤ) (fidx : ℤ) :
    (∀ (v : Fin (ny * nx)) (c : Fin 3), c.val ≠ 2 →
        (runFrames A hx st0 (l ++ [fidx])).mesh v c = st0.mesh v c) ∧
    (∀ v : Fin (ny * nx),
        (runFrames A hx st0 (l ++ [fidx])).mesh v ⟨2, by omega⟩ =
          A.z_scale *
            fetchFrame A.frames A.hne fidx (rowOf ny nx hx v) (colOf ny nx hx v)) := by
  have hsplit : runFrames A hx st0 (l ++ [fidx]) =
      applyFrame A hx (runFrames A hx st0 l) fidx := by
    unfold runFrames
    rw [List.foldl_append]
    rfl
  constructor
  · intro v c hc
    rw [hsplit]
    show (if c.val = 2 then zVec A hx fidx v
      else bufOf (runFrames A hx st0 l) v c) = st0.mesh v c
    rw [if_neg hc, bufOf_runFrames_xy A hx l st0 v c hc]
    show st0.cache.getD st0.mesh v c = st0.mesh v c
    rw [h0]
    rfl
  · intro v
    rw [hsplit]
    show (if (2 : ℕ) = 2 then zVec A hx fidx v
      else bufOf (runFrames A hx st0 l) v ⟨2, by omega⟩) = _
    rw [if_pos rfl]
    rfl

/-- Witness for C10: a one-vertex animator with one frame of value 5 and height
scale 2, applied once: X stays 3, Z becomes 10. -/
theorem claim_apply_frame_touches_only_z_witness :
    (runFrames (⟨[fun _ _ => (5 : ℝ)], 2, by simp⟩ : WignerAnimator 1 1)
        (by norm_num) ⟨fun _ _ => (3 : ℝ), none⟩ [0]).mesh 0 ⟨0, by omega⟩ = 3 ∧
    (runFrames (⟨[fun _ _ => (5 : ℝ)], 2, by simp⟩ : WignerAnimator 1 1)
        (by norm_num) ⟨fun _ _ => (3 : ℝ), none⟩ [0]).mesh 0 ⟨2, by omega⟩ = 2 * 5 := by
  have h := claim_apply_frame_touches_only_z
    (⟨[fun _ _ => (5 : ℝ)], 2, by simp⟩ : WignerAnimator 1 1)
    (by norm_num) ⟨fun _ _ => (3 : ℝ), none⟩ rfl [] 0
  simp only [List.nil_append] at h
  refine ⟨h.1 0 ⟨0, by omega⟩ (by norm_num), ?_⟩
  rw [h.2 0]
  rfl

/-! Claim C4: the pre/post-shifted orthonormal FFT of the wrapped
autocorrelation is the centered transform with frequency `t - ⌊n/2⌋` against the
centered offsets `yIdx`. -/

theorem wrapIdx_val_int (n : ℕ) (z : ℤ) (hn : 0 < n) :
    ((wrapIdx n z hn).val : ℤ) = z % (n : ℤ) := by
  show (((z % (n : ℤ)).toNat : ℕ) : ℤ) = z % (n : ℤ)
  rw [Int.toNat_of_nonneg (Int.emod_nonneg z (Int.natCast_ne_zero.mpr hn.ne'))]

theorem wrapIdx_congr (n : ℕ) {a b : ℤ} (hn : 0 < n) (h : a % (n : ℤ) = b % (n : ℤ)) :
    wrapIdx n a hn = wrapIdx n b hn := by
  apply Fin.ext
  show (a % (n : ℤ)).toNat = (b % (n : ℤ)).toNat
  rw [h]

theorem wrapIdx_fin (n : ℕ) (hn : 0 < n) (u : Fin n) :
    wrapIdx n (u.val : ℤ) hn = u := by
  apply Fin.ext
  show ((u.val : ℤ) % (n : ℤ)).toNat = u.val
  have h := Int.emod_eq_of_lt (show (0 : ℤ) ≤ (u.val : ℤ) by omega)
    (show (u.val : ℤ) < (n : ℤ) by exact_mod_cast u.isLt)
  omega

/-- C4: the Wigner map entry `W[i][t]` equals the real part of the centered
orthonormal DFT `(1/√n) Σ_u psi[(i+y_u) mod n] conj(psi[(i-y_u) mod n])
exp(-2πi (t - ⌊n/2⌋) y_u / n)` divided by π: the modulo-n wrapped
autocorrelation products, an orthonormal FFT over the offset axis whose pre-
and post-shifts center zero offset and zero frequency at the array midpoint,
the real part, and the `1/π` normalization. -/
theorem claim_wigner_centered_fft (S : QuantumSystem) (i t : Fin S.n) :
    S.wignerW i t =
      (((Real.sqrt S.n : ℝ) : ℂ)⁻¹ *
        ∑ u : Fin S.n,
          (S.psi (wrapIdx S.n ((i.val : ℤ) + yIdx S.n u) i.pos) *
            (starRingEnd ℂ) (S.psi (wrapIdx S.n ((i.val : ℤ) - yIdx S.n u) i.pos))) *
          cexpE S.n (-(((t.val : ℤ) - (S.n / 2 : ℕ)) * yIdx S.n u))).re / Real.pi := by
  have hG : S.wignerG i t =
      ((Real.sqrt S.n : ℝ) : ℂ)⁻¹ *
        ∑ u : Fin S.n, S.g_xy i u *
          cexpE S.n (-(((t.val : ℤ) - (S.n / 2 : ℕ)) * yIdx S.n u)) := by
    show fftOrtho S.n (fftshift S.n (S.g_xy i))
        (wrapIdx S.n ((t.val : ℤ) - (S.n / 2 : ℕ)) t.pos) = _
    rw [fftOrtho_cexpE]
    congr 1
    refine (Fintype.sum_bijective
      (fun u : Fin S.n => wrapIdx S.n ((u.val : ℤ) + (S.n / 2 : ℕ)) u.pos) ?_ _ _ ?_).symm
    · refine Finite.injective_iff_bijective.mp ?_
      intro u v huv
      have h1 : ((u.val : ℤ) + (S.n / 2 : ℕ)) % (S.n : ℤ) =
          ((v.val : ℤ) + (S.n / 2 : ℕ)) % (S.n : ℤ) := by
        have := congrArg (fun w : Fin S.n => (w.val : ℤ)) huv
        simpa [wrapIdx_val_int] using this
      have hdvd : (S.n : ℤ) ∣ ((v.val : ℤ) - u.val) := by
        have hme := Int.ModEq.dvd (show Int.ModEq (S.n : ℤ)
          ((u.val : ℤ) + (S.n / 2 : ℕ)) ((v.val : ℤ) + (S.n / 2 : ℕ)) from h1)
        have heq : ((v.val : ℤ) + (S.n / 2 : ℕ)) - ((u.val : ℤ) + (S.n / 2 : ℕ)) =
            (v.val : ℤ) - u.val := by ring
        rwa [heq] at hme
      exact ((natCast_dvd_sub_iff v u).mp hdvd).symm
    · intro u
      have hgidx : wrapIdx S.n
          (((wrapIdx S.n ((u.val : ℤ) + (S.n / 2 : ℕ)) u.pos).val : ℤ) - (S.n / 2 : ℕ))
          (wrapIdx S.n ((u.val : ℤ) + (S.n / 2 : ℕ)) u.pos).pos = u := by
        have hcg : (((wrapIdx S.n ((u.val : ℤ) + (S.n / 2 : ℕ)) u.pos).val : ℤ) -
            (S.n / 2 : ℕ)) % (S.n : ℤ) = (u.val : ℤ) % (S.n : ℤ) := by
          rw [wrapIdx_val_int]
          have ha : Int.ModEq (S.n : ℤ)
              (((u.val : ℤ) + (S.n / 2 : ℕ)) % (S.n : ℤ)) ((u.val : ℤ) + (S.n / 2 : ℕ)) :=
            Int.emod_emod_of_dvd _ dvd_rfl
          have hb := Int.ModEq.sub ha (Int.ModEq.refl ((S.n / 2 : ℕ) : ℤ))
          have hc : ((u.val : ℤ) + (S.n / 2 : ℕ)) - (S.n / 2 : ℕ) = (u.val : ℤ) := by ring
          rw [hc] at hb
          exact hb
        rw [wrapIdx_congr S.n _ hcg, wrapIdx_fin]
      have hexp : cexpE S.n (-(((t.val : ℤ) - (S.n / 2 : ℕ)) * yIdx S.n u)) =
          cexpE S.n
            (-(((wrapIdx S.n ((t.val : ℤ) - (S.n / 2 : ℕ)) t.pos).val : ℤ) *
              ((wrapIdx S.n ((u.val : ℤ) + (S.n / 2 : ℕ)) u.pos).val : ℤ))) := by
        apply cexpE_congr
        have hJ : ((wrapIdx S.n ((t.val : ℤ) - (S.n / 2 : ℕ)) t.pos).val : ℤ) =
            ((t.val : ℤ) - (S.n / 2 : ℕ)) % (S.n : ℤ) := wrapIdx_val_int _ _ _
        have hs : ((wrapIdx S.n ((u.val : ℤ) + (S.n / 2 : ℕ)) u.pos).val : ℤ) =
            ((u.val : ℤ) + (S.n / 2 : ℕ)) % (S.n : ℤ) := wrapIdx_val_int _ _ _
        have hmod1 : Int.ModEq (S.n : ℤ)
            (((wrapIdx S.n ((t.val : ℤ) - (S.n / 2 : ℕ)) t.pos).val : ℤ) *
              ((wrapIdx S.n ((u.val : ℤ) + (S.n / 2 : ℕ)) u.pos).val : ℤ))
            (((t.val : ℤ) - (S.n / 2 : ℕ)) * ((u.val : ℤ) + (S.n / 2 : ℕ))) := by
          rw [hJ, hs]
          exact Int.ModEq.mul (Int.emod_emod_of_dvd _ dvd_rfl)
            (Int.emod_emod_of_dvd _ dvd_rfl)
        have hmod2 : Int.ModEq (S.n : ℤ)
            (((t.val : ℤ) - (S.n / 2 : ℕ)) * ((u.val : ℤ) + (S.n / 2 : ℕ)))
            (((t.val : ℤ) - (S.n / 2 : ℕ)) * yIdx S.n u) := by
          apply Int.modEq_iff_dvd.mpr
          refine ⟨-((t.val : ℤ) - (S.n / 2 : ℕ)), ?_⟩
          have hsc : ((S.n / 2 : ℕ) : ℤ) + (((S.n + 1) / 2 : ℕ) : ℤ) = (S.n : ℤ) := by
            have hnat : (S.n / 2 : ℕ) + ((S.n + 1) / 2 : ℕ) = S.n := by omega
            exact_mod_cast hnat
          unfold yIdx
          linear_combination (-((t.val : ℤ) - (S.n / 2 : ℕ))) * hsc
        exact ((hmod1.trans hmod2).neg).symm
      show S.g_xy i u * cexpE S.n (-(((t.val : ℤ) - (S.n / 2 : ℕ)) * yIdx S.n u)) = _
      rw [hexp]
      congr 1
      show S.g_xy i u = fftshift S.n (S.g_xy i)
        (wrapIdx S.n ((u.val : ℤ) + (S.n / 2 : ℕ)) u.pos)
      show S.g_xy i u = S.g_xy i (wrapIdx S.n
        (((wrapIdx S.n ((u.val : ℤ) + (S.n / 2 : ℕ)) u.pos).val : ℤ) - (S.n / 2 : ℕ))
        (wrapIdx S.n ((u.val : ℤ) + (S.n / 2 : ℕ)) u.pos).pos)
      rw [hgidx]
  show (S.wignerG i t).re / Real.pi = _
  rw [hG]
  rfl

/-! Claim C6. -/

theorem fftfreqInt_shift (n : ℕ) (t : Fin n) :
    (fftfreqInt n (wrapIdx n ((t.val : ℤ) - (n / 2 : ℕ)) t.pos).val : ℤ)
      = (t.val : ℤ) - ((n / 2 : ℕ) : ℤ) := by
  have hn : 0 < n := t.pos
  have hval : ((wrapIdx n ((t.val : ℤ) - (n / 2 : ℕ)) t.pos).val : ℤ) =
      ((t.val : ℤ) - (n / 2 : ℕ)) % (n : ℤ) := wrapIdx_val_int _ _ _
  have hdvd : (n : ℤ) ∣ (((t.val : ℤ) - (n / 2 : ℕ)) % (n : ℤ) -
      ((t.val : ℤ) - (n / 2 : ℕ))) :=
    ⟨-(((t.val : ℤ) - (n / 2 : ℕ)) / n), by rw [Int.emod_def]; ring⟩
  obtain ⟨k, hk⟩ := hdvd
  have ht := t.isLt
  have hw := (wrapIdx n ((t.val : ℤ) - (n / 2 : ℕ)) t.pos).isLt
  have hk0 : k = 0 ∨ k = 1 := by
    rcases lt_trichotomy k 0 with h | h | h
    · have hle : (n : ℤ) * k ≤ (n : ℤ) * (-1) :=
        mul_le_mul_of_nonneg_left (by omega) (by omega)
      omega
    · exact Or.inl h
    · rcases lt_trichotomy k 1 with h1 | h1 | h1
      · omega
      · exact Or.inr h1
      · have hle : (n : ℤ) * 2 ≤ (n : ℤ) * k :=
          mul_le_mul_of_nonneg_left (by omega) (by omega)
        omega
  unfold fftfreqInt
  split
  · rcases hk0 with rfl | rfl <;> omega
  · rcases hk0 with rfl | rfl <;> omega

/-- C6 (amended): `wigner` returns three same-shaped `n × n` fields whose entry
`[a][b]` is mutually consistent — position mesh `x[b]`, momentum mesh
`p[a] = π (a - ⌊n/2⌋)/(n dx)` (the centered frequency of row `a`), and the
transposed Wigner map `W[b][a]` — i.e. the returned map is momentum-major,
position-minor, matching the axes of the meshes it is returned with. -/
theorem claim_wigner_output_momentum_major (S : QuantumSystem) (a b : Fin S.n) :
    (S.wigner).1 a b = S.x b ∧
    (S.wigner).2.1 a b =
      Real.pi * ((((a.val : ℤ) - ((S.n / 2 : ℕ) : ℤ) : ℤ) : ℝ) / (S.n * S.dx)) ∧
    (S.wigner).2.2 a b = S.wignerW b a := by
  refine ⟨rfl, ?_, rfl⟩
  show Real.pi * fftshift S.n (fftfreq S.n S.dx) a = _
  show Real.pi * fftfreq S.n S.dx
    (wrapIdx S.n ((a.val : ℤ) - ((S.n / 2 : ℕ) : ℤ)) a.pos) = _
  unfold fftfreq
  congr 2
  exact_mod_cast congrArg (fun z : ℤ => (z : ℝ)) (fftfreqInt_shift S.n a)

/-- C6 counterexample: for the two-sample system with `psi = [1, 2]`, entry
`[0][1]` of the returned (transposed) Wigner map is `W[1][0] = 3/(√2 π)`,
which differs from the position-major reading `W[0][1] = 5/(√2 π)`: the
returned map is not position-major as the claim states. -/
theorem claim_wigner_output_not_position_major :
    (wignerDemoSystem.wigner).2.2 (0 : Fin 2) (1 : Fin 2) ≠
      wignerDemoSystem.wignerW (0 : Fin 2) (1 : Fin 2) := by
  have hc0 : cexpE 2 0 = 1 := by
    unfold cexpE
    norm_num
  have hc1 : cexpE 2 (-1) = -1 := by
    unfold cexpE
    have harg : 2 * (Real.pi : ℂ) * Complex.I * ((-1 : ℤ) : ℂ) / ((2 : ℕ) : ℂ) =
        -((Real.pi : ℂ) * Complex.I) := by
      push_cast
      ring
    rw [harg, Complex.exp_neg, Complex.exp_pi_mul_I]
    norm_num
  have hg10 : wignerDemoSystem.g_xy (1 : Fin 2) (0 : Fin 2) = 1 := by
    show wignerDemoSystem.psi (wrapIdx 2 ((1 : ℤ) + yIdx 2 0) (by decide)) *
      (starRingEnd ℂ)
        (wignerDemoSystem.psi (wrapIdx 2 ((1 : ℤ) - yIdx 2 0) (by decide))) = 1
    rw [show wrapIdx 2 ((1 : ℤ) + yIdx 2 0) (by decide) = 0 from by decide,
        show wrapIdx 2 ((1 : ℤ) - yIdx 2 0) (by decide) = 0 from by decide]
    show (![1, 2] : Fin 2 → ℂ) 0 * (starRingEnd ℂ) ((![1, 2] : Fin 2 → ℂ) 0) = 1
    simp
  have hg11 : wignerDemoSystem.g_xy (1 : Fin 2) (1 : Fin 2) = 4 := by
    show wignerDemoSystem.psi (wrapIdx 2 ((1 : ℤ) + yIdx 2 1) (by decide)) *
      (starRingEnd ℂ)
        (wignerDemoSystem.psi (wrapIdx 2 ((1 : ℤ) - yIdx 2 1) (by decide))) = 4
    rw [show wrapIdx 2 ((1 : ℤ) + yIdx 2 1) (by decide) = 1 from by decide,
        show wrapIdx 2 ((1 : ℤ) - yIdx 2 1) (by decide) = 1 from by decide]
    show (![1, 2] : Fin 2 → ℂ) 1 * (starRingEnd ℂ) ((![1, 2] : Fin 2 → ℂ) 1) = 4
    simp only [Matrix.cons_val_one, Matrix.head_cons, map_ofNat]
    norm_num
  have hg00 : wignerDemoSystem.g_xy (0 : Fin 2) (0 : Fin 2) = 4 := by
    show wignerDemoSystem.psi (wrapIdx 2 ((0 : ℤ) + yIdx 2 0) (by decide)) *
      (starRingEnd ℂ)
        (wignerDemoSystem.psi (wrapIdx 2 ((0 : ℤ) - yIdx 2 0) (by decide))) = 4
    rw [show wrapIdx 2 ((0 : ℤ) + yIdx 2 0) (by decide) = 1 from by decide,
        show wrapIdx 2 ((0 : ℤ) - yIdx 2 0) (by decide) = 1 from by decide]
    show (![1, 2] : Fin 2 → ℂ) 1 * (starRingEnd ℂ) ((![1, 2] : Fin 2 → ℂ) 1) = 4
    simp only [Matrix.cons_val_one, Matrix.head_cons, map_ofNat]
    norm_num
  have hg01 : wignerDemoSystem.g_xy (0 : Fin 2) (1 : Fin 2) = 1 := by
    show wignerDemoSystem.psi (wrapIdx 2 ((0 : ℤ) + yIdx 2 1) (by decide)) *
      (starRingEnd ℂ)
        (wignerDemoSystem.psi (wrapIdx 2 ((0 : ℤ) - yIdx 2 1) (by decide))) = 1
    rw [show wrapIdx 2 ((0 : ℤ) + yIdx 2 1) (by decide) = 0 from by decide,
        show wrapIdx 2 ((0 : ℤ) - yIdx 2 1) (by decide) = 0 from by decide]
    show (![1, 2] : Fin 2 → ℂ) 0 * (starRingEnd ℂ) ((![1, 2] : Fin 2 → ℂ) 0) = 1
    simp
  have hG10 : wignerDemoSystem.wignerG (1 : Fin 2) (0 : Fin 2) =
      ((Real.sqrt 2 : ℝ) : ℂ)⁻¹ * 3 := by
    show fftOrtho 2 (fftshift 2 (wignerDemoSystem.g_xy (1 : Fin 2)))
      (wrapIdx 2 ((0 : ℤ) - ((2 / 2 : ℕ) : ℤ)) (by decide)) = _
    rw [show wrapIdx 2 ((0 : ℤ) - ((2 / 2 : ℕ) : ℤ)) (by decide) = 1 from by decide]
    rw [fftOrtho_cexpE, Fin.sum_univ_two]
    have ha0 : fftshift 2 (wignerDemoSystem.g_xy (1 : Fin 2)) (0 : Fin 2) =
        wignerDemoSystem.g_xy (1 : Fin 2) (1 : Fin 2) := by
      show wignerDemoSystem.g_xy (1 : Fin 2)
        (wrapIdx 2 ((0 : ℤ) - ((2 / 2 : ℕ) : ℤ)) (by decide)) = _
      rw [show wrapIdx 2 ((0 : ℤ) - ((2 / 2 : ℕ) : ℤ)) (by decide) = 1 from by decide]
    have ha1 : fftshift 2 (wignerDemoSystem.g_xy (1 : Fin 2)) (1 : Fin 2) =
        wignerDemoSystem.g_xy (1 : Fin 2) (0 : Fin 2) := by
      show wignerDemoSystem.g_xy (1 : Fin 2)
        (wrapIdx 2 ((1 : ℤ) - ((2 / 2 : ℕ) : ℤ)) (by decide)) = _
      rw [show wrapIdx 2 ((1 : ℤ) - ((2 / 2 : ℕ) : ℤ)) (by decide) = 0 from by decide]
    rw [ha0, ha1, hg10, hg11]
    norm_num [Fin.val_one, Fin.val_zero, hc0, hc1]
  have hG01 : wignerDemoSystem.wignerG (0 : Fin 2) (1 : Fin 2) =
      ((Real.sqrt 2 : ℝ) : ℂ)⁻¹ * 5 := by
    show fftOrtho 2 (fftshift 2 (wignerDemoSystem.g_xy (0 : Fin 2)))
      (wrapIdx 2 ((1 : ℤ) - ((2 / 2 : ℕ) : ℤ)) (by decide)) = _
    rw [show wrapIdx 2 ((1 : ℤ) - ((2 / 2 : ℕ) : ℤ)) (by decide) = 0 from by decide]
    rw [fftOrtho_cexpE, Fin.sum_univ_two]
    have ha0 : fftshift 2 (wignerDemoSystem.g_xy (0 : Fin 2)) (0 : Fin 2) =
        wignerDemoSystem.g_xy (0 : Fin 2) (1 : Fin 2) := by
      show wignerDemoSystem.g_xy (0 : Fin 2)
        (wrapIdx 2 ((0 : ℤ) - ((2 / 2 : ℕ) : ℤ)) (by decide)) = _
      rw [show wrapIdx 2 ((0 : ℤ) - ((2 / 2 : ℕ) : ℤ)) (by decide) = 1 from by decide]
    have ha1 : fftshift 2 (wignerDemoSystem.g_xy (0 : Fin 2)) (1 : Fin 2) =
        wignerDemoSystem.g_xy (0 : Fin 2) (0 : Fin 2) := by
      show wignerDemoSystem.g_xy (0 : Fin 2)
        (wrapIdx 2 ((1 : ℤ) - ((2 / 2 : ℕ) : ℤ)) (by decide)) = _
      rw [show wrapIdx 2 ((1 : ℤ) - ((2 / 2 : ℕ) : ℤ)) (by decide) = 0 from by decide]
    rw [ha0, ha1, hg01, hg00]
    norm_num [Fin.val_one, Fin.val_zero, hc0, hc1]
  have hW10 : wignerDemoSystem.wignerW (1 : Fin 2) (0 : Fin 2) =
      3 * (Real.sqrt 2)⁻¹ / Real.pi := by
    show (wignerDemoSystem.wignerG (1 : Fin 2) (0 : Fin 2)).re / Real.pi = _
    rw [hG10]
    have hre : (((Real.sqrt 2 : ℝ) : ℂ)⁻¹ * 3).re = (Real.sqrt 2)⁻¹ * 3 := by
      rw [show ((Real.sqrt 2 : ℝ) : ℂ)⁻¹ * 3 = (((Real.sqrt 2)⁻¹ * 3 : ℝ) : ℂ) from by
        push_cast
        ring]
      rw [Complex.ofReal_re]
    rw [hre]
    ring
  have hW01 : wignerDemoSystem.wignerW (0 : Fin 2) (1 : Fin 2) =
      5 * (Real.sqrt 2)⁻¹ / Real.pi := by
    show (wignerDemoSystem.wignerG (0 : Fin 2) (1 : Fin 2)).re / Real.pi = _
    rw [hG01]
    have hre : (((Real.sqrt 2 : ℝ) : ℂ)⁻¹ * 5).re = (Real.sqrt 2)⁻¹ * 5 := by
      rw [show ((Real.sqrt 2 : ℝ) : ℂ)⁻¹ * 5 = (((Real.sqrt 2)⁻¹ * 5 : ℝ) : ℂ) from by
        push_cast
        ring]
      rw [Complex.ofReal_re]
    rw [hre]
    ring
  show wignerDemoSystem.wignerW (1 : Fin 2) (0 : Fin 2) ≠
    wignerDemoSystem.wignerW (0 : Fin 2) (1 : Fin 2)
  rw [hW10, hW01]
  intro heq
  have hs : Real.sqrt 2 ≠ 0 := ne_of_gt (Real.sqrt_pos.mpr (by norm_num))
  have hπ : Real.pi ≠ 0 := Real.pi_ne_zero
  field_simp at heq
  norm_num at heq
